import Mathlib

/-!
Shallow embedding of the batch font-archiving pipeline (src/font_archiver.py)
and proofs about its discovery/grouping, archive-retry, size-routing,
commit and repository-lifecycle logic.

Python strings are modelled as lists of characters (PyStr).  Python string
methods used by the program (lower, strip, split, endswith, the substring
test) are embedded below; the embedding is exact on the ASCII range, which
is the range every statement in this file exercises (the one deliberate
exception, the Unicode-aware regex class of sanitize, is documented at its
definition).
-/

namespace FontArchiver

/-- Python strings, modelled as lists of characters. -/
abbrev PyStr := List Char

/-- Per-character lowercasing as done by Python str.lower.  Exact on the
ASCII range; characters above U+007F are left unchanged (the statements in
this file only lowercase ASCII characters, and the proofs that use this
function only need that it acts characterwise and maps the ASCII marker
characters as Python does). -/
def pyCharLower (c : Char) : Char :=
  if 'A' ≤ c ∧ c ≤ 'Z' then Char.ofNat (c.toNat + 32) else c

/-- Python str.lower, characterwise. -/
def pyLower (s : PyStr) : PyStr := s.map pyCharLower

/-- The character set removed by Python str.strip with no argument
(ASCII whitespace; Python also strips some Unicode spaces, which never
occur in the statements below). -/
def pyIsSpace (c : Char) : Bool :=
  c = ' ' || c = '\t' || c = '\n' || c = '\x0d' || c = '\x0b' || c = '\x0c'

/-- Python str.strip: remove leading and trailing whitespace. -/
def pyStrip (s : PyStr) : PyStr :=
  (s.dropWhile pyIsSpace).rdropWhile pyIsSpace

/-- Python substring test, s2 in s1 : does sub occur contiguously in s? -/
def containsSub (sub : PyStr) : PyStr → Bool
  | [] => sub.isEmpty
  | c :: rest => sub.isPrefixOf (c :: rest) || containsSub sub rest

/-- The first component of Python s.split(sep) for a non-empty sep:
everything before the first occurrence of sep (the whole string when sep
does not occur). -/
def beforeFirst (sep : PyStr) : PyStr → PyStr
  | [] => []
  | c :: rest => if sep.isPrefixOf (c :: rest) then [] else c :: beforeFirst sep rest

/-- normalize_nerd_font_name (src/font_archiver.py:424).
If the lowercased name contains "nerd font" but does not end with it,
split the original name at the case-sensitive marker "Nerd Font", strip
the part before it, and append " Nerd Font". -/
def normalize_nerd_font_name (family_name : PyStr) : PyStr :=
  if containsSub "nerd font".data (pyLower family_name)
      && !("nerd font".data.isSuffixOf (pyLower family_name)) then
    pyStrip (beforeFirst "Nerd Font".data family_name) ++ " Nerd Font".data
  else
    family_name

/-- Lowercasing distributes over concatenation. -/
lemma pyLower_append (x y : PyStr) : pyLower (x ++ y) = pyLower x ++ pyLower y :=
  List.map_append _ x y

/-- Any name produced by the rewrite branch ends, lowercased, with the
lowercased marker. -/
lemma marker_isSuffixOf_rewrite (x : PyStr) :
    "nerd font".data.isSuffixOf (pyLower (x ++ " Nerd Font".data)) = true := by
  rw [List.isSuffixOf_iff_suffix, pyLower_append]
  have h : pyLower " Nerd Font".data = ' ' :: "nerd font".data := by decide
  rw [h]
  exact ⟨pyLower x ++ [' '], by simp⟩

/-- If sep does not occur in s, splitting returns s whole. -/
lemma beforeFirst_of_not_contains (sep : PyStr) :
    ∀ s : PyStr, containsSub sep s = false → beforeFirst sep s = s := by
  intro s
  induction s with
  | nil => intro _; rfl
  | cons c rest ih =>
    intro h
    rw [containsSub, Bool.or_eq_false_iff] at h
    rw [beforeFirst, if_neg (by simp [h.1]), ih h.2]

/-- C6: the Nerd Font name-normalization pass is idempotent: for every
GroupKey string s, normalize_nerd_font_name (normalize_nerd_font_name s)
= normalize_nerd_font_name s. -/
theorem c6_normalize_idempotent (s : PyStr) :
    normalize_nerd_font_name (normalize_nerd_font_name s) = normalize_nerd_font_name s := by
  by_cases h : (containsSub "nerd font".data (pyLower s)
      && !("nerd font".data.isSuffixOf (pyLower s))) = true
  · have hr : normalize_nerd_font_name s
        = pyStrip (beforeFirst "Nerd Font".data s) ++ " Nerd Font".data := by
      rw [normalize_nerd_font_name, if_pos h]
    rw [hr, normalize_nerd_font_name, if_neg]
    intro hc
    rw [Bool.and_eq_true, marker_isSuffixOf_rewrite] at hc
    simp at hc
  · have hr : normalize_nerd_font_name s = s := by
      rw [normalize_nerd_font_name, if_neg h]
    rw [hr, normalize_nerd_font_name, if_neg h]

/-- Witness for C6 at a concrete group key. -/
theorem c6_witness :
    normalize_nerd_font_name (normalize_nerd_font_name "SomeFont Nerd Font Mono".data)
      = normalize_nerd_font_name "SomeFont Nerd Font Mono".data :=
  c6_normalize_idempotent "SomeFont Nerd Font Mono".data

/-- C7: applying the name-normalization pass to "SomeFont Nerd Font Mono"
yields exactly "SomeFont Nerd Font": the marker is relocated to the end and
the base name before the marker is preserved. -/
theorem c7_marker_relocated :
    normalize_nerd_font_name "SomeFont Nerd Font Mono".data
      = "SomeFont Nerd Font".data := by decide

/-- C10 (counterexample): the claim as stated fails on a name with trailing
whitespace.  "Foo nerd font Mono " satisfies all three hypotheses of the
claim (contains "nerd font" case-insensitively, does not contain the
case-sensitive "Nerd Font", does not end case-insensitively with
"nerd font"), yet the pass does not return the entire original name with
" Nerd Font" appended: Python str.strip removes the trailing space first. -/
theorem c10_counterexample :
    containsSub "nerd font".data (pyLower "Foo nerd font Mono ".data) = true
    ∧ containsSub "Nerd Font".data "Foo nerd font Mono ".data = false
    ∧ "nerd font".data.isSuffixOf (pyLower "Foo nerd font Mono ".data) = false
    ∧ normalize_nerd_font_name "Foo nerd font Mono ".data
        ≠ "Foo nerd font Mono ".data ++ " Nerd Font".data := by decide

/-- C10 (amended): for every family name containing "nerd font"
case-insensitively, not containing the case-sensitive "Nerd Font", and not
ending case-insensitively with "nerd font", the pass returns the
whitespace-stripped original name with " Nerd Font" appended (the
case-sensitive split point is never found, so nothing is truncated); in
particular, when the name has no leading or trailing whitespace it returns
the entire original name with " Nerd Font" appended. -/
theorem c10_case_sensitive_split (s : PyStr)
    (h1 : containsSub "nerd font".data (pyLower s) = true)
    (h2 : containsSub "Nerd Font".data s = false)
    (h3 : "nerd font".data.isSuffixOf (pyLower s) = false) :
    normalize_nerd_font_name s = pyStrip s ++ " Nerd Font".data
    ∧ (pyStrip s = s → normalize_nerd_font_name s = s ++ " Nerd Font".data) := by
  have hmain : normalize_nerd_font_name s = pyStrip s ++ " Nerd Font".data := by
    rw [normalize_nerd_font_name, if_pos (by rw [h1, h3]; rfl),
      beforeFirst_of_not_contains _ _ h2]
  exact ⟨hmain, fun hs => by rw [hmain, hs]⟩

/-- Witness for C10 at the concrete input "Foo nerd font Mono". -/
theorem c10_witness :
    normalize_nerd_font_name "Foo nerd font Mono".data
      = "Foo nerd font Mono".data ++ " Nerd Font".data :=
  (c10_case_sensitive_split "Foo nerd font Mono".data
    (by decide) (by decide) (by decide)).2 (by decide)

/-- The character class matched by the regex word class in Python 3
(re.sub pattern of _sanitize_name, src/font_archiver.py:759).  Python 3
regexes over str are Unicode-aware: the class matches ASCII letters
(65-90, 97-122), ASCII digits (48-57), the underscore (95), and every
further Unicode alphanumeric character.  This embedding is exact on code
points up to U+00FF (Latin-1: 0xAA, 0xB2, 0xB3, 0xB5, 0xB9, 0xBA, 0xBC,
0xBD, 0xBE and the letters 0xC0-0xFF minus the two operators 0xD7, 0xF7);
code points above U+00FF are conservatively treated as non-word, and no
statement below mentions such a character. -/
def pythonWordChar (c : Char) : Bool :=
  (65 ≤ c.toNat && c.toNat ≤ 90) || (97 ≤ c.toNat && c.toNat ≤ 122)
  || (48 ≤ c.toNat && c.toNat ≤ 57) || c.toNat = 95
  || c.toNat = 0xAA || c.toNat = 0xB2 || c.toNat = 0xB3 || c.toNat = 0xB5
  || c.toNat = 0xB9 || c.toNat = 0xBA || c.toNat = 0xBC || c.toNat = 0xBD
  || c.toNat = 0xBE
  || (0xC0 ≤ c.toNat && c.toNat ≤ 0xFF && c.toNat ≠ 0xD7 && c.toNat ≠ 0xF7)

/-- _sanitize_name (src/font_archiver.py:749): re.sub replacing every
character that is neither a word character nor a hyphen (45) nor a dot
(46) with an underscore. -/
def _sanitize_name (s : PyStr) : PyStr :=
  s.map fun c => if pythonWordChar c || c.toNat = 45 || c.toNat = 46 then c else '_'

/-- The character set named by the specification: ASCII letter, ASCII
digit, underscore, dot, or hyphen.  Stated from the spec's words, for
comparison against the code's class. -/
def specSafeChar (c : Char) : Bool :=
  (65 ≤ c.toNat && c.toNat ≤ 90) || (97 ≤ c.toNat && c.toNat ≤ 122)
  || (48 ≤ c.toNat && c.toNat ≤ 57) || c.toNat = 95 || c.toNat = 46 || c.toNat = 45

/-- C4 (counterexample): the sanitizer passes the non-ASCII letter 'é'
through unchanged, because the Python word class is Unicode-aware; so the
output of the sanitizer is not always within the claimed ASCII-only set. -/
theorem c4_counterexample :
    _sanitize_name ['é'] = ['é'] ∧ specSafeChar 'é' = false := by decide

/-- C4 (amended): the sanitizer replaces every character that is not a
Unicode word character, hyphen, or dot with an underscore; restricted to
ASCII input strings the original claim holds: every character of the
output is an ASCII letter, ASCII digit, underscore, dot, or hyphen. -/
theorem c4_sanitize_ascii_safe (s : PyStr) (hascii : ∀ c ∈ s, c.toNat < 128) :
    ∀ c ∈ _sanitize_name s, specSafeChar c = true := by
  intro c hc
  rw [_sanitize_name, List.mem_map] at hc
  obtain ⟨a, ha, hfa⟩ := hc
  by_cases hk : (pythonWordChar a || a.toNat = 45 || a.toNat = 46) = true
  · rw [if_pos hk] at hfa
    subst hfa
    have h128 := hascii a ha
    simp only [pythonWordChar, specSafeChar, Bool.or_eq_true, Bool.and_eq_true,
      decide_eq_true_eq] at hk ⊢
    omega
  · rw [if_neg hk] at hfa
    subst hfa
    decide

/-- Witness for C4 at the concrete input "My Font 1.0!". -/
theorem c4_witness : specSafeChar 'M' = true :=
  c4_sanitize_ascii_safe "My Font 1.0!".data (by decide) 'M' (by decide)

/-- _is_file_too_large (src/font_archiver.py:1772): a file is too large
for the direct content-API upload when its size in bytes (os.path.getsize)
is strictly greater than 70 * 1024 * 1024. -/
def _is_file_too_large (size : Nat) : Bool :=
  decide (70 * 1024 * 1024 < size)

/-- The two upload paths a manifest file can be routed to by _process_file. -/
inductive UploadRoute
  | largeStaged
  | smallDirect
deriving DecidableEq

/-- The routing branch of _process_file (src/font_archiver.py:1843):
files classified too large go to the staged bulk-transfer (LFS) path,
the rest to the small-file direct/staged-commit path. -/
def _process_file_route (size : Nat) : UploadRoute :=
  if _is_file_too_large size then UploadRoute.largeStaged else UploadRoute.smallDirect

/-- C1 (counterexample): a file of exactly 70 MiB is NOT routed to the
large-file path; the size classifier uses a strict greater-than, so at the
threshold it reports not-too-large and _process_file takes the small-file
branch. -/
theorem c1_counterexample :
    _process_file_route (70 * 1024 * 1024) ≠ UploadRoute.largeStaged
    ∧ _is_file_too_large (70 * 1024 * 1024) = false := by decide

/-- C1 (amended): the size classifier reports too-large iff the size is
strictly greater than 70 MiB; both a file of exactly the threshold size
and a file one byte under it are routed to the small-file path. -/
theorem c1_threshold_strict (size : Nat) :
    (_process_file_route size = UploadRoute.largeStaged ↔ 70 * 1024 * 1024 < size)
    ∧ _process_file_route (70 * 1024 * 1024) = UploadRoute.smallDirect
    ∧ _process_file_route (70 * 1024 * 1024 - 1) = UploadRoute.smallDirect := by
  refine ⟨?_, by decide, by decide⟩
  rw [_process_file_route, _is_file_too_large]
  by_cases h : 70 * 1024 * 1024 < size
  · simp [h]
  · simp [h]

/-- Witness for C1 at concrete sizes around the threshold. -/
theorem c1_witness :
    _process_file_route (70 * 1024 * 1024 + 1) = UploadRoute.largeStaged :=
  (c1_threshold_strict (70 * 1024 * 1024 + 1)).1.mpr (by omega)

/-- The git invocations performed by _commit_changes, in order. -/
inductive GitCmd
  | statusQuery
  | commit
  | commitAllowEmpty
deriving DecidableEq

/-- _commit_changes (src/font_archiver.py:1982), with the outcome of each
git invocation supplied as a parameter: statusOut is the stdout of the
dry-run status query (git status --porcelain), commitOk whether the normal
commit exits zero, allowEmptyOk whether the allow-empty fallback commit
exits zero.  Returns Except: ok (whether a commit was made, the commands
run) or error (the uncaught CalledProcessError when the fallback commit
itself fails, since it runs with check=True outside any handler). -/
def _commit_changes (statusOut : PyStr) (commitOk : Bool) (allowEmptyOk : Bool) :
    Except Unit (Bool × List GitCmd) :=
  if pyStrip statusOut = [] then Except.ok (false, [GitCmd.statusQuery])
  else if commitOk then Except.ok (true, [GitCmd.statusQuery, GitCmd.commit])
  else if allowEmptyOk then
    Except.ok (true, [GitCmd.statusQuery, GitCmd.commit, GitCmd.commitAllowEmpty])
  else Except.error ()

/-- C8: when the dry-run status query reports no changes (empty output
after stripping), no commit command runs and the step returns false
(nothing committed); when it reports changes and the normal commit fails
but the allow-empty fallback succeeds, the fallback commit runs and the
step returns true (a commit was made). -/
theorem c8_commit_contract (statusOut : PyStr) (commitOk allowEmptyOk : Bool) :
    (pyStrip statusOut = [] →
      _commit_changes statusOut commitOk allowEmptyOk = Except.ok (false, [GitCmd.statusQuery])
      ∧ GitCmd.commit ∉ [GitCmd.statusQuery]
      ∧ GitCmd.commitAllowEmpty ∉ [GitCmd.statusQuery])
    ∧ (pyStrip statusOut ≠ [] → commitOk = false → allowEmptyOk = true →
      _commit_changes statusOut commitOk allowEmptyOk
        = Except.ok (true, [GitCmd.statusQuery, GitCmd.commit, GitCmd.commitAllowEmpty])) := by
  constructor
  · intro h
    refine ⟨by simp [_commit_changes, h], by decide, by decide⟩
  · intro h hc ha
    simp [_commit_changes, h, hc, ha]

/-- Witness for C8: empty status output commits nothing; a dirty status
with a failing commit and a succeeding allow-empty fallback reports a
commit. -/
theorem c8_witness :
    _commit_changes [] true true = Except.ok (false, [GitCmd.statusQuery])
    ∧ _commit_changes " M x".data false true
        = Except.ok (true, [GitCmd.statusQuery, GitCmd.commit, GitCmd.commitAllowEmpty]) :=
  ⟨((c8_commit_contract [] true true).1 (by decide)).1,
    (c8_commit_contract " M x".data false true).2 (by decide) rfl rfl⟩

/-- _handle_existing_repo (src/font_archiver.py:1538), with the raw prompt
input and the outcome of the remote deletion supplied as parameters.
Returns ((success, should_append), attempted_delete): the first pair is
the function's return value, the last component records whether
repo.delete() was invoked. -/
def _handle_existing_repo (rawChoice : PyStr) (deleteOk : Bool) : (Bool × Bool) × Bool :=
  if pyStrip rawChoice = "2".data ∨ pyLower (pyStrip rawChoice) = "append".data then
    ((true, true), false)
  else if deleteOk then ((true, false), true)
  else ((false, false), true)

/-- C9: the prompt input is stripped of surrounding whitespace; any
resulting choice other than exactly "2" or case-insensitively "append"
(including the empty string and invalid choices such as "3") takes the
delete-and-recreate path and attempts to delete the existing remote
repository; exactly those two choices take the non-destructive append
path, with no deletion attempted. -/
theorem c9_destructive_default (rawChoice : PyStr) (deleteOk : Bool) :
    (¬(pyStrip rawChoice = "2".data ∨ pyLower (pyStrip rawChoice) = "append".data) →
      (_handle_existing_repo rawChoice deleteOk).2 = true
      ∧ (_handle_existing_repo rawChoice deleteOk).1.2 = false)
    ∧ ((pyStrip rawChoice = "2".data ∨ pyLower (pyStrip rawChoice) = "append".data) →
      (_handle_existing_repo rawChoice deleteOk).2 = false
      ∧ (_handle_existing_repo rawChoice deleteOk).1 = (true, true)) := by
  constructor
  · intro h
    cases deleteOk <;> simp [_handle_existing_repo, h]
  · intro h
    simp [_handle_existing_repo, h]

/-- Witness for C9: "3", the empty string, and whitespace take the
destructive path; "2" and " APPEND " take the append path. -/
theorem c9_witness :
    (_handle_existing_repo "3".data true).2 = true
    ∧ (_handle_existing_repo [] true).2 = true
    ∧ (_handle_existing_repo "2".data true).2 = false
    ∧ (_handle_existing_repo " APPEND ".data false).1 = (true, true) :=
  ⟨((c9_destructive_default "3".data true).1 (by decide)).1,
    ((c9_destructive_default [] true).1 (by decide)).1,
    ((c9_destructive_default "2".data true).2 (by decide)).1,
    ((c9_destructive_default " APPEND ".data false).2 (by decide)).2⟩

/-!
### Windows path functions
The program targets Windows (it scans Windows font directories), so
os.path is ntpath.  The functions below embed CPython 3.11 ntpath:
splitdrive, split (giving dirname and basename), splitext, and the binary
join, each following the stdlib algorithm.
-/

/-- A Windows path separator: ntpath.sep or ntpath.altsep. -/
def isSep (c : Char) : Bool := c = '\\' || c = '/'

/-- Does the list start with a separator?  (False for the empty list.) -/
def headIsSep (l : PyStr) : Bool :=
  match l.head? with
  | some c => isSep c
  | none => false

/-- Does the list end with a character that is not a separator?
(False for the empty list.) -/
def lastNotSep (l : PyStr) : Bool :=
  match l.getLast? with
  | some c => !(isSep c)
  | none => false

/-- Does the list end with a colon?  (False for the empty list.) -/
def lastIsColon (l : PyStr) : Bool :=
  match l.getLast? with
  | some c => c = ':'
  | none => false

/-- Index of the last occurrence of c, if any (Python str.rfind with the
convention none for -1). -/
def rfindIdx (c : Char) : PyStr → Option Nat
  | [] => none
  | a :: rest =>
    match rfindIdx c rest with
    | some i => some (i + 1)
    | none => if a = c then some 0 else none

/-- Maximum of two optional indices, none behaving as Python's -1. -/
def optIdxMax : Option Nat → Option Nat → Option Nat
  | none, b => b
  | some i, none => some i
  | some i, some j => some (max i j)

/-- ntpath.splitdrive: split a drive letter pair ("C:") or a UNC share
("\\server\share") from the front of the path.  CPython: when the first
two characters are separators and the third is not, scan for the two
separators ending the UNC host and share; otherwise when the second
character is a colon the first two characters are the drive. -/
def ntSplitDrive (p : PyStr) : PyStr × PyStr :=
  match p with
  | a :: b :: rest =>
    if isSep a && isSep b && !(headIsSep rest) then
      match rest.findIdx? isSep with
      | none => ([], p)
      | some i =>
        match (rest.drop (i + 1)).findIdx? isSep with
        | some 0 => ([], p)
        | some j => (p.take (2 + i + 1 + j), p.drop (2 + i + 1 + j))
        | none => (p, [])
    else if b = ':' then ([a, ':'], rest) else ([], p)
  | _ => ([], p)

/-- ntpath.split: after removing the drive, the tail is everything after
the last separator; the head keeps the drive and is stripped of trailing
separators unless it consists only of separators. -/
def ntSplit (p : PyStr) : PyStr × PyStr :=
  let d := (ntSplitDrive p).1
  let r := (ntSplitDrive p).2
  let tail := r.rtakeWhile fun c => !(isSep c)
  let head := r.rdropWhile fun c => !(isSep c)
  let head2 := head.rdropWhile isSep
  (d ++ (if head2 = [] then head else head2), tail)

/-- ntpath.dirname. -/
def ntDirname (p : PyStr) : PyStr := (ntSplit p).1

/-- ntpath.basename. -/
def ntBasename (p : PyStr) : PyStr := (ntSplit p).2

/-- ntpath.splitext (genericpath._splitext with sep backslash, altsep
slash, extsep dot): the extension starts at the last dot, provided that
dot lies after the last separator and at least one character of the
basename before it is not a dot. -/
def ntSplitExt (p : PyStr) : PyStr × PyStr :=
  let sepIdx := optIdxMax (rfindIdx '\\' p) (rfindIdx '/' p)
  match rfindIdx '.' p with
  | none => (p, [])
  | some d =>
    let start := match sepIdx with | none => 0 | some si => si + 1
    let dotAfterSep := match sepIdx with | none => true | some si => decide (si < d)
    if dotAfterSep then
      if ((p.take d).drop start).any (fun c => decide (c ≠ '.')) then (p.take d, p.drop d)
      else (p, [])
    else (p, [])

/-- ntpath.join restricted to two arguments, following the CPython loop
body for a single extra path: an absolute or differently-drived second
path discards the first; otherwise the second path is appended, with one
separator inserted when the accumulated path does not already end in one;
finally a separator is inserted between a UNC drive and a relative tail. -/
def ntJoin (path b : PyStr) : PyStr :=
  let rd := (ntSplitDrive path).1
  let rp := (ntSplitDrive path).2
  let pd := (ntSplitDrive b).1
  let pp := (ntSplitDrive b).2
  let fdp :=
    if headIsSep pp then
      (if pd ≠ [] ∨ rd = [] then pd else rd, pp)
    else if pd ≠ [] ∧ pd ≠ rd then
      (if pyLower pd ≠ pyLower rd then (pd, pp)
       else (pd, (if lastNotSep rp then rp ++ ['\\'] else rp) ++ pp))
    else (rd, (if lastNotSep rp then rp ++ ['\\'] else rp) ++ pp)
  let fd := fdp.1
  let fp := fdp.2
  if fp ≠ [] ∧ !(headIsSep fp) ∧ fd ≠ [] ∧ !(lastIsColon fd) then fd ++ '\\' :: fp
  else fd ++ fp

/-- _get_retry_path (src/font_archiver.py:817): insert a retry suffix
between the stem of the basename and the (splitext) extension. -/
def _get_retry_path (original_path : PyStr) (retry_count : Nat) : PyStr :=
  let file_ext := (ntSplitExt original_path).2
  ntJoin (ntDirname original_path)
    ((ntSplitExt (ntBasename original_path)).1
      ++ "_retry".data ++ Nat.toDigits 10 retry_count ++ file_ext)

/-!
### Archive creation with retry
The archive-creation strategy (_create_zip_with_strategy: external 7zip
with zipfile fallback, file I/O) is supplied as a parameter mapping the
attempt index to its outcome: some true / some false model the strategy
returning True / False, none models a raised exception.  Both False and
an exception advance the retry loop (the code sleeps between attempts
only on the exception path, which does not affect the result).
-/

/-- The while-loop of _attempt_zip_creation_with_retry
(src/font_archiver.py:1027), with fuel = max_retries - retry_count:
from the second attempt on, the target path is replaced by the
retry-suffixed path derived from the original path. -/
def retryGo (strategy : Nat → Option Bool) (original : PyStr) :
    Nat → Nat → PyStr → Bool × PyStr
  | 0, _, zp => (false, zp)
  | fuel + 1, k, zp =>
    let zp2 := if 0 < k then _get_retry_path original k else zp
    match strategy k with
    | some true => (true, zp2)
    | _ => retryGo strategy original fuel (k + 1) zp2

/-- _attempt_zip_creation_with_retry: up to max_retries = 3 attempts,
returning (success, final target path). -/
def _attempt_zip_creation_with_retry (strategy : Nat → Option Bool) (original : PyStr) :
    Bool × PyStr :=
  retryGo strategy original 3 0 original

/-- _prepare_zip_path (src/font_archiver.py:762): sanitized family name
plus ".7z" joined onto the output directory and made absolute.
os.path.abspath depends on the process working directory, so it is a
parameter. -/
def _prepare_zip_path (abspath : PyStr → PyStr) (family_name outputDir : PyStr) : PyStr :=
  abspath (ntJoin outputDir (_sanitize_name family_name ++ ".7z".data))

/-- _get_zip_size (src/font_archiver.py:836): os.path.getsize with
exceptions mapped to 0.  fileSize is the file system, none meaning the
file does not exist. -/
def _get_zip_size (fileSize : PyStr → Option Nat) (p : PyStr) : Nat :=
  (fileSize p).getD 0

/-- _verify_and_get_zip_size (src/font_archiver.py:1069): raise
FileNotFoundError when the archive does not exist, else its size. -/
def _verify_and_get_zip_size (fileSize : PyStr → Option Nat) (p : PyStr) : Except Unit Nat :=
  match fileSize p with
  | none => Except.error ()
  | some _ => Except.ok (_get_zip_size fileSize p)

/-- create_zip_for_family (src/font_archiver.py:1087): build the archive
with retries; any failure (retry exhaustion or missing output file) is
caught and mapped to the sanitized default path with size 0 — nothing is
raised to the caller. -/
def create_zip_for_family (abspath : PyStr → PyStr) (fileSize : PyStr → Option Nat)
    (strategy : Nat → Option Bool) (family_name outputDir : PyStr) : PyStr × Nat :=
  let archive_path := _prepare_zip_path abspath family_name outputDir
  let res := _attempt_zip_creation_with_retry strategy archive_path
  if res.1 then
    match _verify_and_get_zip_size fileSize res.2 with
    | Except.ok sz => (res.2, sz)
    | Except.error _ => (ntJoin outputDir (_sanitize_name family_name ++ ".7z".data), 0)
  else (ntJoin outputDir (_sanitize_name family_name ++ ".7z".data), 0)

/-- A failed attempt (returned False or raised) advances the retry loop. -/
lemma retryGo_step (strategy : Nat → Option Bool) (original : PyStr)
    (fuel k : Nat) (zp : PyStr) (hk : strategy k ≠ some true) :
    retryGo strategy original (fuel + 1) k zp
      = retryGo strategy original fuel (k + 1)
          (if 0 < k then _get_retry_path original k else zp) := by
  cases hk' : strategy k with
  | none => simp [retryGo, hk']
  | some b =>
    cases b with
    | false => simp [retryGo, hk']
    | true => exact absurd hk' hk

/-- Two failures then a success: the third attempt targets the
retry-2 path. -/
lemma attempt_fail_fail_ok (strategy : Nat → Option Bool) (original : PyStr)
    (h0 : strategy 0 ≠ some true) (h1 : strategy 1 ≠ some true)
    (h2 : strategy 2 = some true) :
    _attempt_zip_creation_with_retry strategy original
      = (true, _get_retry_path original 2) := by
  rw [_attempt_zip_creation_with_retry, retryGo_step strategy original 2 0 original h0,
    retryGo_step strategy original 1 1 _ h1]
  simp [retryGo, h2]

/-- Three failures: the loop reports failure. -/
lemma attempt_all_fail (strategy : Nat → Option Bool) (original : PyStr)
    (h0 : strategy 0 ≠ some true) (h1 : strategy 1 ≠ some true)
    (h2 : strategy 2 ≠ some true) :
    (_attempt_zip_creation_with_retry strategy original).1 = false := by
  rw [_attempt_zip_creation_with_retry, retryGo_step strategy original 2 0 original h0,
    retryGo_step strategy original 1 1 _ h1, retryGo_step strategy original 0 2 _ h2]
  rfl

/-!
### List computation lemmas used for the path proofs
-/

lemma takeWhile_append_stop {q : Char → Bool} (xs : PyStr) {y : Char} (ys : PyStr)
    (hxs : ∀ c ∈ xs, q c = true) (hy : q y = false) :
    (xs ++ y :: ys).takeWhile q = xs := by
  rw [List.takeWhile_append_of_pos hxs, List.takeWhile_cons_of_neg (by simp [hy]),
    List.append_nil]

lemma dropWhile_append_stop {q : Char → Bool} (xs : PyStr) {y : Char} (ys : PyStr)
    (hxs : ∀ c ∈ xs, q c = true) (hy : q y = false) :
    (xs ++ y :: ys).dropWhile q = y :: ys := by
  rw [List.dropWhile_append_of_pos hxs, List.dropWhile_cons_of_neg (by simp [hy])]

lemma rtakeWhile_append_stop {q : Char → Bool} (xs : PyStr) {y : Char} (ys : PyStr)
    (hys : ∀ c ∈ ys, q c = true) (hy : q y = false) :
    (xs ++ y :: ys).rtakeWhile q = ys := by
  rw [List.rtakeWhile, List.reverse_append, List.reverse_cons,
    List.append_assoc, List.singleton_append,
    takeWhile_append_stop _ _ (by intro c hc; exact hys c (List.mem_reverse.1 hc)) hy,
    List.reverse_reverse]

lemma rdropWhile_append_stop {q : Char → Bool} (xs : PyStr) {y : Char} (ys : PyStr)
    (hys : ∀ c ∈ ys, q c = true) (hy : q y = false) :
    (xs ++ y :: ys).rdropWhile q = xs ++ [y] := by
  rw [List.rdropWhile, List.reverse_append, List.reverse_cons,
    List.append_assoc, List.singleton_append,
    dropWhile_append_stop _ _ (by intro c hc; exact hys c (List.mem_reverse.1 hc)) hy,
    List.reverse_cons, List.reverse_reverse]

lemma rdropWhile_eq_self_of_last {q : Char → Bool} {l : PyStr}
    (h : l = [] ∨ ∃ c, l.getLast? = some c ∧ q c = false) :
    l.rdropWhile q = l := by
  rcases h with h | ⟨c, hc, hqc⟩
  · subst h; rfl
  · rw [List.rdropWhile_eq_self_iff]
    intro hl
    rw [List.getLast?_eq_getLast l hl, Option.some_inj] at hc
    rw [hc, hqc]
    simp

lemma rfindIdx_eq_none {c : Char} : ∀ {l : PyStr}, c ∉ l → rfindIdx c l = none := by
  intro l
  induction l with
  | nil => intro _; rfl
  | cons a rest ih =>
    intro h
    rw [List.mem_cons, not_or] at h
    rw [rfindIdx, ih h.2, if_neg (fun hac => h.1 hac.symm)]

lemma rfindIdx_append_right {c : Char} {ys : PyStr} {i : Nat} (xs : PyStr)
    (h : rfindIdx c ys = some i) : rfindIdx c (xs ++ ys) = some (xs.length + i) := by
  induction xs with
  | nil => simpa using h
  | cons a t ih =>
    rw [List.cons_append, rfindIdx, ih]
    show some (t.length + i + 1) = some ((a :: t).length + i)
    simp only [List.length_cons]
    congr 1
    omega

lemma rfindIdx_append_left {c : Char} (xs : PyStr) {ys : PyStr} (h : c ∉ ys) :
    rfindIdx c (xs ++ ys) = rfindIdx c xs := by
  induction xs with
  | nil => simpa using rfindIdx_eq_none h
  | cons a t ih => rw [List.cons_append, rfindIdx, ih, rfindIdx]

lemma rfindIdx_lt_length {c : Char} : ∀ {l : PyStr} {i : Nat},
    rfindIdx c l = some i → i < l.length := by
  intro l
  induction l with
  | nil => intro i h; exact absurd h (by simp [rfindIdx])
  | cons a rest ih =>
    intro i h
    rw [rfindIdx] at h
    rcases hr : rfindIdx c rest with _ | j
    · rw [hr] at h
      by_cases hac : a = c
      · simp [hac] at h
        simp only [List.length_cons]
        omega
      · simp [hac] at h
    · rw [hr] at h
      simp only [Option.some_inj] at h
      have := ih hr
      simp only [List.length_cons]
      omega

/-!
### Path computation lemmas
-/

/-- A path that does not look like a drive or UNC share splits into an
empty drive and itself. -/
lemma ntSplitDrive_no_drive (l : PyStr)
    (h : ∀ a b rest, l = a :: b :: rest → (isSep a = false ∨ isSep b = false) ∧ b ≠ ':') :
    ntSplitDrive l = ([], l) := by
  rcases l with _ | ⟨a, _ | ⟨b, rest⟩⟩
  · rfl
  · rfl
  · obtain ⟨hab, hb⟩ := h a b rest rfl
    have hcond : ¬ ((isSep a && isSep b && !(headIsSep rest)) = true) := by
      rcases hab with h' | h' <;> simp [h']
    simp only [ntSplitDrive]
    rw [if_neg hcond, if_neg hb]

/-- A drive-letter pair is split off the front. -/
lemma ntSplitDrive_drive (a : Char) (t : PyStr) :
    ntSplitDrive (a :: ':' :: t) = ([a, ':'], t) := by
  have hcond : ¬ ((isSep a && isSep ':' && !(headIsSep t)) = true) := by
    simp [isSep]
  simp only [ntSplitDrive]
  rw [if_neg hcond]
  simp

/-- splitext of the concatenation stem ++ ext where the stem is
separator-free with a non-dot character, and the extension is
separator-free with its last dot first (as ".7z" is). -/
lemma ntSplitExt_flat (s ext : PyStr) (hs : ∀ c ∈ s, isSep c = false)
    (hnd : ∃ c ∈ s, c ≠ '.')
    (hext : ∀ c ∈ ext, isSep c = false)
    (hdot0 : rfindIdx '.' ext = some 0) :
    ntSplitExt (s ++ ext) = (s, ext) := by
  have hbs : '\\' ∉ s ++ ext := by
    intro hm
    rcases List.mem_append.1 hm with hm | hm
    · have := hs _ hm; simp [isSep] at this
    · have := hext _ hm; simp [isSep] at this
  have hfs : '/' ∉ s ++ ext := by
    intro hm
    rcases List.mem_append.1 hm with hm | hm
    · have := hs _ hm; simp [isSep] at this
    · have := hext _ hm; simp [isSep] at this
  have hdot : rfindIdx '.' (s ++ ext) = some (s.length + 0) :=
    rfindIdx_append_right s hdot0
  have hany : (List.drop 0 (List.take (s.length + 0) (s ++ ext))).any
      (fun c => decide (c ≠ '.')) = true := by
    rw [List.drop_zero, List.take_left' (by omega)]
    obtain ⟨c, hc, hcd⟩ := hnd
    exact List.any_eq_true.2 ⟨c, hc, by simp [hcd]⟩
  simp only [ntSplitExt, rfindIdx_eq_none hbs, rfindIdx_eq_none hfs, optIdxMax, hdot, hany,
    if_true, if_pos]
  rw [List.take_left' (by omega), List.drop_left' (by omega)]

/-- splitext of a path whose basename region is stem ++ ext with a
separator just before it: the extension is recognized whenever the stem
is separator-free and has a non-dot character; the leading part may
contain anything. -/
lemma ntSplitExt_after_sep (pre s ext : PyStr) (hs : ∀ c ∈ s, isSep c = false)
    (hnd : ∃ c ∈ s, c ≠ '.')
    (hext : ∀ c ∈ ext, isSep c = false)
    (hdot0 : rfindIdx '.' ext = some 0) :
    ntSplitExt (pre ++ '\\' :: (s ++ ext)) = (pre ++ '\\' :: s, ext) := by
  have hbsf : '\\' ∉ s ++ ext := by
    intro hm
    rcases List.mem_append.1 hm with hm | hm
    · have := hs _ hm; simp [isSep] at this
    · have := hext _ hm; simp [isSep] at this
  have hfsf : '/' ∉ '\\' :: (s ++ ext) := by
    intro hm
    rcases List.mem_cons.1 hm with hm | hm
    · exact absurd hm.symm (by decide)
    · rcases List.mem_append.1 hm with hm | hm
      · have := hs _ hm; simp [isSep] at this
      · have := hext _ hm; simp [isSep] at this
  have hbsl : rfindIdx '\\' ('\\' :: (s ++ ext)) = some 0 := by
    rw [rfindIdx, rfindIdx_eq_none hbsf]
    simp
  have hbs : rfindIdx '\\' (pre ++ '\\' :: (s ++ ext)) = some (pre.length + 0) :=
    rfindIdx_append_right pre hbsl
  have hfs : rfindIdx '/' (pre ++ '\\' :: (s ++ ext)) = rfindIdx '/' pre :=
    rfindIdx_append_left pre hfsf
  have hassoc : pre ++ '\\' :: (s ++ ext) = (pre ++ '\\' :: s) ++ ext := by
    simp
  have hdot : rfindIdx '.' (pre ++ '\\' :: (s ++ ext))
      = some ((pre ++ '\\' :: s).length + 0) := by
    rw [hassoc]
    exact rfindIdx_append_right _ hdot0
  have hlen : (pre ++ '\\' :: s).length = pre.length + s.length + 1 := by
    simp only [List.length_append, List.length_cons]
    omega
  have hmax : optIdxMax (rfindIdx '\\' (pre ++ '\\' :: (s ++ ext)))
      (rfindIdx '/' (pre ++ '\\' :: (s ++ ext))) = some (pre.length + 0) := by
    rw [hbs, hfs]
    rcases hsl : rfindIdx '/' pre with _ | j
    · simp [optIdxMax]
    · have hj := rfindIdx_lt_length hsl
      simp only [optIdxMax, Option.some_inj]
      omega
  have hdec : decide (pre.length + 0 < (pre ++ '\\' :: s).length + 0) = true :=
    decide_eq_true (by omega)
  have htake : List.take ((pre ++ '\\' :: s).length + 0) (pre ++ '\\' :: (s ++ ext))
      = pre ++ '\\' :: s := by
    rw [hassoc, List.take_left' (by omega)]
  have hany : (List.drop (pre.length + 0 + 1) (pre ++ '\\' :: s)).any
      (fun c => decide (c ≠ '.')) = true := by
    have h2 : pre ++ '\\' :: s = (pre ++ ['\\']) ++ s := by simp
    rw [h2, List.drop_left' (by simp)]
    obtain ⟨c, hc, hcd⟩ := hnd
    exact List.any_eq_true.2 ⟨c, hc, by simp [hcd]⟩
  have hdrop : List.drop ((pre ++ '\\' :: s).length + 0) (pre ++ '\\' :: (s ++ ext)) = ext := by
    rw [hassoc, List.drop_left' (by omega)]
  simp only [ntSplitExt, hmax, hdot, hdec, hany, if_true, if_pos, htake, hdrop]

lemma lastNotSep_ne_nil {l : PyStr} (h : lastNotSep l = true) : l ≠ [] := by
  intro he
  subst he
  simp [lastNotSep] at h

lemma headIsSep_append (l m : PyStr) (h : l ≠ []) : headIsSep (l ++ m) = headIsSep l := by
  cases l with
  | nil => exact absurd rfl h
  | cons a t => simp [headIsSep]

/-- ntSplit of drive ++ directory part ++ separator ++ separator-free
basename: the basename is the tail; the head keeps the drive and the
directory part, which degenerates to a single separator when the
directory part is empty. -/
lemma ntSplit_concat (drv restPre f : PyStr)
    (hf : ∀ c ∈ f, isSep c = false)
    (hsd : ntSplitDrive (drv ++ (restPre ++ '\\' :: f)) = (drv, restPre ++ '\\' :: f))
    (hrp : restPre = [] ∨ ∃ c, restPre.getLast? = some c ∧ isSep c = false) :
    ntSplit (drv ++ (restPre ++ '\\' :: f))
      = (drv ++ (if restPre = [] then ['\\'] else restPre), f) := by
  have hq : ∀ c ∈ f, (fun c => !(isSep c)) c = true := by
    intro c hc
    simp [hf c hc]
  have hqy : (fun c => !(isSep c)) '\\' = false := by simp [isSep]
  have htail : (restPre ++ '\\' :: f).rtakeWhile (fun c => !(isSep c)) = f :=
    rtakeWhile_append_stop restPre f hq hqy
  have hhead : (restPre ++ '\\' :: f).rdropWhile (fun c => !(isSep c)) = restPre ++ ['\\'] :=
    rdropWhile_append_stop restPre f hq hqy
  have hhead2 : (restPre ++ ['\\']).rdropWhile isSep = restPre := by
    rw [List.rdropWhile_concat_pos isSep restPre '\\' (by simp [isSep])]
    exact rdropWhile_eq_self_of_last hrp
  simp only [ntSplit, hsd, htail, hhead, hhead2]
  by_cases hre : restPre = []
  · subst hre
    simp
  · rw [if_neg hre, if_neg hre]

/-- Joining a relative drive-less basename onto a directory that is a
drive followed by a single root separator. -/
lemma ntJoin_rootsep (drv nb : PyStr)
    (hsd : ntSplitDrive (drv ++ ['\\']) = (drv, ['\\']))
    (hnb : ntSplitDrive nb = ([], nb))
    (hnb0 : headIsSep nb = false) :
    ntJoin (drv ++ ['\\']) nb = drv ++ '\\' :: nb := by
  have hln : lastNotSep ['\\'] = false := by simp [lastNotSep, isSep]
  have hhs : headIsSep ('\\' :: nb) = true := by simp [headIsSep, isSep]
  simp only [ntJoin, hsd, hnb, hnb0, hln, List.singleton_append, hhs]
  simp [hhs]

/-- Joining a relative drive-less basename onto a directory whose tail
part does not end in a separator: one separator is inserted. -/
lemma ntJoin_addsep (drv dtail nb : PyStr)
    (hsd : ntSplitDrive (drv ++ dtail) = (drv, dtail))
    (hnb : ntSplitDrive nb = ([], nb))
    (hnb0 : headIsSep nb = false)
    (hlast : lastNotSep dtail = true)
    (hskip : drv = [] ∨ lastIsColon drv = true ∨ headIsSep dtail = true) :
    ntJoin (drv ++ dtail) nb = drv ++ (dtail ++ '\\' :: nb) := by
  have hdne : dtail ≠ [] := lastNotSep_ne_nil hlast
  have hfp : dtail ++ ['\\'] ++ nb = dtail ++ '\\' :: nb := by simp
  simp only [ntJoin, hsd, hnb, hnb0, hlast, if_true, hfp]
  rcases hskip with h | h | h
  · subst h
    simp
  · simp [h]
  · have h2 : headIsSep (dtail ++ '\\' :: nb) = true := by
      rw [headIsSep_append dtail ('\\' :: nb) hdne]
      exact h
    simp [h2]

/-- Joining onto an empty directory returns the second path unchanged. -/
lemma ntJoin_nil (nb : PyStr) (hnb : ntSplitDrive nb = ([], nb))
    (hnb0 : headIsSep nb = false) :
    ntJoin [] nb = nb := by
  have h0 : ntSplitDrive ([] : PyStr) = ([], []) := rfl
  have hln : lastNotSep ([] : PyStr) = false := by simp [lastNotSep]
  simp only [ntJoin, hnb, hnb0, h0, hln]
  simp

/-- The archive basename with the retry suffix has no drive and does not
start with a separator. -/
lemma retry_base_plain (s tail : PyStr)
    (hs : ∀ c ∈ s, isSep c = false ∧ c ≠ ':')
    (hnd : ∃ c ∈ s, c ≠ '.')
    (htl : ∀ a rest, tail = a :: rest → isSep a = false ∧ a ≠ ':') :
    ntSplitDrive (s ++ tail) = ([], s ++ tail) ∧ headIsSep (s ++ tail) = false := by
  rcases s with _ | ⟨c0, s'⟩
  · obtain ⟨c, hc, _⟩ := hnd
    exact absurd hc (List.not_mem_nil c)
  have hc0 : isSep c0 = false := (hs c0 (List.mem_cons_self c0 s')).1
  constructor
  · apply ntSplitDrive_no_drive
    intro a b rest heq
    simp only [List.cons_append, List.cons.injEq] at heq
    obtain ⟨h1, h2⟩ := heq
    subst h1
    refine ⟨Or.inl hc0, ?_⟩
    rcases s' with _ | ⟨c1, s''⟩
    · rw [List.nil_append] at h2
      exact (htl b rest h2).2
    · simp only [List.cons_append, List.cons.injEq] at h2
      obtain ⟨h3, _⟩ := h2
      subst h3
      exact (hs c1 (by simp)).2
  · simp [headIsSep, hc0]

/-- The literal tail "_retry2.7z" starts with an underscore: not a
separator, not a colon. -/
lemma retry_tail_plain : ∀ (a : Char) (rest : List Char),
    "_retry2.7z".data = a :: rest → isSep a = false ∧ a ≠ ':' := by
  intro a rest heq
  injection heq with h1 _
  subst h1
  decide

/-- The literal tail ".7z" starts with a dot: not a separator, not a
colon. -/
lemma ext_tail_plain : ∀ (a : Char) (rest : List Char),
    ".7z".data = a :: rest → isSep a = false ∧ a ≠ ':' := by
  intro a rest heq
  injection heq with h1 _
  subst h1
  decide

/-- Core of the retry-path computation.  For a path of the shape
drive ++ dirPart ++ separator ++ stem ++ ".7z", where the stem is free of
separators and colons and has a non-dot character, _get_retry_path inserts
"_retry2" between the stem and the extension.  The splitdrive behavior of
the path and of the derived directory are supplied as hypotheses,
discharged case by case at the call sites. -/
lemma retry_path_core (drv restPre s : PyStr)
    (hs : ∀ c ∈ s, isSep c = false ∧ c ≠ ':')
    (hnd : ∃ c ∈ s, c ≠ '.')
    (hrp : restPre = [] ∨ ∃ c, restPre.getLast? = some c ∧ isSep c = false)
    (hsd1 : ntSplitDrive (drv ++ (restPre ++ '\\' :: (s ++ ".7z".data)))
      = (drv, restPre ++ '\\' :: (s ++ ".7z".data)))
    (hsd2 : ntSplitDrive (drv ++ (if restPre = [] then ['\\'] else restPre))
      = (drv, if restPre = [] then ['\\'] else restPre))
    (hdrv : drv = [] ∨ lastIsColon drv = true) :
    _get_retry_path (drv ++ (restPre ++ '\\' :: (s ++ ".7z".data))) 2
      = drv ++ (restPre ++ '\\' :: (s ++ "_retry2.7z".data)) := by
  have hs1 : ∀ c ∈ s, isSep c = false := fun c hc => (hs c hc).1
  have hf : ∀ c ∈ s ++ ".7z".data, isSep c = false := by
    intro c hc
    rcases List.mem_append.1 hc with hc | hc
    · exact hs1 c hc
    · revert hc
      have : ∀ c ∈ ".7z".data, isSep c = false := by decide
      exact this c
  have hse : ntSplitExt (drv ++ (restPre ++ '\\' :: (s ++ ".7z".data)))
      = ((drv ++ restPre) ++ '\\' :: s, ".7z".data) := by
    rw [show drv ++ (restPre ++ '\\' :: (s ++ ".7z".data))
        = (drv ++ restPre) ++ '\\' :: (s ++ ".7z".data) by simp]
    exact ntSplitExt_after_sep _ s _ hs1 hnd (by decide) (by decide)
  have hsplit : ntSplit (drv ++ (restPre ++ '\\' :: (s ++ ".7z".data)))
      = (drv ++ (if restPre = [] then ['\\'] else restPre), s ++ ".7z".data) :=
    ntSplit_concat drv restPre (s ++ ".7z".data) hf hsd1 hrp
  have hbn : ntSplitExt (s ++ ".7z".data) = (s, ".7z".data) :=
    ntSplitExt_flat s _ hs1 hnd (by decide) (by decide)
  have harg : s ++ "_retry".data ++ Nat.toDigits 10 2 ++ ".7z".data
      = s ++ "_retry2.7z".data := by
    have h2 : Nat.toDigits 10 2 = ['2'] := by decide
    rw [h2]
    simp only [List.append_assoc]
    congr 1
  have hplain : ntSplitDrive (s ++ "_retry2.7z".data) = ([], s ++ "_retry2.7z".data)
      ∧ headIsSep (s ++ "_retry2.7z".data) = false :=
    retry_base_plain s "_retry2.7z".data hs hnd retry_tail_plain
  rw [_get_retry_path, ntDirname, ntBasename, hsplit, hse, hbn]
  simp only [harg]
  rcases hrp with hre | ⟨c, hc, hcs⟩
  · subst hre
    rw [if_pos rfl, ntJoin_rootsep drv _ (by simpa using hsd2) hplain.1 hplain.2]
    simp
  · have hrne : restPre ≠ [] := by
      intro h
      subst h
      simp at hc
    rw [if_neg hrne]
    rw [if_neg hrne] at hsd2
    have hlast : lastNotSep restPre = true := by
      simp [lastNotSep, hc, hcs]
    rw [ntJoin_addsep drv restPre _ hsd2 hplain.1 hplain.2 hlast
      (by rcases hdrv with h | h
          · exact Or.inl h
          · exact Or.inr (Or.inl h))]

/-- The retry-path computation for a bare filename (no separators at
all): the suffix is inserted before the extension. -/
lemma retry_path_flat (s : PyStr)
    (hs : ∀ c ∈ s, isSep c = false ∧ c ≠ ':')
    (hnd : ∃ c ∈ s, c ≠ '.') :
    _get_retry_path (s ++ ".7z".data) 2 = s ++ "_retry2.7z".data := by
  have hs1 : ∀ c ∈ s, isSep c = false := fun c hc => (hs c hc).1
  have hf : ∀ c ∈ s ++ ".7z".data, isSep c = false := by
    intro c hc
    rcases List.mem_append.1 hc with hc | hc
    · exact hs1 c hc
    · revert hc
      have : ∀ c ∈ ".7z".data, isSep c = false := by decide
      exact this c
  have hsd : ntSplitDrive (s ++ ".7z".data) = ([], s ++ ".7z".data) ∧
      headIsSep (s ++ ".7z".data) = false :=
    retry_base_plain s ".7z".data hs hnd ext_tail_plain
  have htail : (s ++ ".7z".data).rtakeWhile (fun c => !(isSep c)) = s ++ ".7z".data :=
    List.rtakeWhile_eq_self_iff.2 (by intro c hc; simp [hf c hc])
  have hhead : (s ++ ".7z".data).rdropWhile (fun c => !(isSep c)) = [] :=
    List.rdropWhile_eq_nil_iff.2 (by intro c hc; simp [hf c hc])
  have hsplit : ntSplit (s ++ ".7z".data) = ([], s ++ ".7z".data) := by
    simp only [ntSplit, hsd.1, htail, hhead]
    simp
  have hbn : ntSplitExt (s ++ ".7z".data) = (s, ".7z".data) :=
    ntSplitExt_flat s _ hs1 hnd (by decide) (by decide)
  have harg : s ++ "_retry".data ++ Nat.toDigits 10 2 ++ ".7z".data
      = s ++ "_retry2.7z".data := by
    have h2 : Nat.toDigits 10 2 = ['2'] := by decide
    rw [h2]
    simp only [List.append_assoc]
    congr 1
  have hplain : ntSplitDrive (s ++ "_retry2.7z".data) = ([], s ++ "_retry2.7z".data)
      ∧ headIsSep (s ++ "_retry2.7z".data) = false :=
    retry_base_plain s "_retry2.7z".data hs hnd retry_tail_plain
  rw [_get_retry_path, ntDirname, ntBasename, hsplit, hbn]
  simp only [harg]
  exact ntJoin_nil _ hplain.1 hplain.2

/-- Does the list start with two separators (the UNC shape)? -/
def twoLeadingSeps (l : PyStr) : Bool :=
  match l with
  | a :: b :: _ => isSep a && isSep b
  | _ => false

lemma lastNotSep_spec {l : PyStr} (h : lastNotSep l = true) :
    ∃ c, l.getLast? = some c ∧ isSep c = false := by
  rw [lastNotSep] at h
  rcases hg : l.getLast? with _ | c
  · rw [hg] at h
    simp at h
  · rw [hg] at h
    simp only [Bool.not_eq_true'] at h
    exact ⟨c, rfl, h⟩

lemma ntSplitDrive_sep_cons (s tail : PyStr)
    (hs : ∀ c ∈ s, isSep c = false ∧ c ≠ ':')
    (hne : s ≠ []) :
    ntSplitDrive ('\\' :: (s ++ tail)) = ([], '\\' :: (s ++ tail)) := by
  apply ntSplitDrive_no_drive
  intro a b rest heq
  rcases s with _ | ⟨c0, s'⟩
  · exact absurd rfl hne
  simp only [List.cons_append, List.cons.injEq] at heq
  obtain ⟨h1, h2, _⟩ := heq
  subst h1
  subst h2
  have := hs c0 (by simp)
  exact ⟨Or.inr this.1, this.2⟩

/-- C2 (counterexample): the claim fails for the font family ".".  The
sanitized name is ".", the archive path is "C:\out\..7z", and Python's
splitext treats the basename "..7z" as extensionless (all characters
before its last dot are dots), so after two failures the third attempt
targets "C:\out\..7z_retry2" — the suffix is appended after ".7z", not
inserted before the extension ("C:\out\._retry2.7z"). -/
theorem c2_counterexample :
    _prepare_zip_path (fun p => p) ".".data "C:\\out".data = "C:\\out\\..7z".data
    ∧ _attempt_zip_creation_with_retry (fun k => some (decide (k = 2))) "C:\\out\\..7z".data
        = (true, "C:\\out\\..7z_retry2".data)
    ∧ "C:\\out\\..7z_retry2".data ≠ "C:\\out\\._retry2.7z".data := by decide

/-- C2 (amended): (i) whenever the archive-creation strategy fails on the
first two attempts and succeeds on the third, the returned archive path is
_get_retry_path(original, 2); (ii) for every original path of the shape
prefix + separator + stem + ".7z" — prefix not ending in a separator and
not UNC-shaped, stem free of separators and colons and containing at least
one non-dot character — that retry path is the original path with
"_retry2" inserted before the ".7z" extension; (iii) likewise for a bare
stem + ".7z" filename with no directory part; (iv) when all 3 attempts
fail, create_zip_for_family returns a result of size 0 instead of raising
to its caller. -/
theorem c2_retry_and_failure :
    (∀ (strategy : Nat → Option Bool) (original : PyStr),
      strategy 0 ≠ some true → strategy 1 ≠ some true → strategy 2 = some true →
      _attempt_zip_creation_with_retry strategy original
        = (true, _get_retry_path original 2))
    ∧ (∀ pre s : PyStr, (∀ c ∈ s, isSep c = false ∧ c ≠ ':') → (∃ c ∈ s, c ≠ '.') →
      (pre = [] ∨ (lastNotSep pre = true ∧ twoLeadingSeps pre = false)) →
      _get_retry_path (pre ++ '\\' :: (s ++ ".7z".data)) 2
        = pre ++ '\\' :: (s ++ "_retry2.7z".data))
    ∧ (∀ s : PyStr, (∀ c ∈ s, isSep c = false ∧ c ≠ ':') → (∃ c ∈ s, c ≠ '.') →
      _get_retry_path (s ++ ".7z".data) 2 = s ++ "_retry2.7z".data)
    ∧ (∀ (abspath : PyStr → PyStr) (fileSize : PyStr → Option Nat)
        (strategy : Nat → Option Bool) (family_name outputDir : PyStr),
      strategy 0 ≠ some true → strategy 1 ≠ some true → strategy 2 ≠ some true →
      (create_zip_for_family abspath fileSize strategy family_name outputDir).2 = 0) := by
  refine ⟨attempt_fail_fail_ok, ?_, retry_path_flat, ?_⟩
  · intro pre s hs hnd hpre
    have hsne : s ≠ [] := by
      obtain ⟨c, hc, _⟩ := hnd
      intro h
      subst h
      exact absurd hc (List.not_mem_nil c)
    rcases pre with _ | ⟨a, _ | ⟨b, t⟩⟩
    · have h := retry_path_core [] [] s hs hnd (Or.inl rfl)
        (by simpa using ntSplitDrive_sep_cons s ".7z".data hs hsne)
        (by simp; rfl) (Or.inl rfl)
      simpa using h
    · rcases hpre with h | ⟨hlast, _⟩
      · exact absurd h (by simp)
      have ha : isSep a = false := by
        rw [lastNotSep] at hlast
        simpa using hlast
      have h := retry_path_core [] [a] s hs hnd
        (Or.inr ⟨a, by simp, ha⟩)
        (by
          simp only [List.nil_append, List.cons_append]
          apply ntSplitDrive_no_drive
          intro a' b' rest heq
          simp only [List.cons.injEq] at heq
          obtain ⟨h1, h2, _⟩ := heq
          subst h1
          subst h2
          exact ⟨Or.inl ha, by decide⟩)
        (by simp; rfl) (Or.inl rfl)
      simpa using h
    · rcases hpre with h | ⟨hlast, htwo⟩
      · exact absurd h (by simp)
      by_cases hb : b = ':'
      · subst hb
        have hLdrv : lastIsColon [a, ':'] = true := by
          simp [lastIsColon, List.getLast?_cons_cons]
        have hrp : t = [] ∨ ∃ c, t.getLast? = some c ∧ isSep c = false := by
          rcases t with _ | ⟨u, t'⟩
          · exact Or.inl rfl
          · right
            obtain ⟨c, hc, hcs⟩ := lastNotSep_spec hlast
            refine ⟨c, ?_, hcs⟩
            rw [List.getLast?_cons_cons, List.getLast?_cons_cons] at hc
            exact hc
        have h := retry_path_core [a, ':'] t s hs hnd hrp
          (by
            rw [show [a, ':'] ++ (t ++ '\\' :: (s ++ ".7z".data))
              = a :: ':' :: (t ++ '\\' :: (s ++ ".7z".data)) by simp]
            exact ntSplitDrive_drive a _)
          (by
            rcases ht : t with _ | ⟨u, t'⟩
            · rw [if_pos rfl, show [a, ':'] ++ ['\\'] = a :: ':' :: ['\\'] by simp]
              exact ntSplitDrive_drive a _
            · rw [if_neg (by simp), show [a, ':'] ++ (u :: t') = a :: ':' :: (u :: t') by simp]
              exact ntSplitDrive_drive a _)
          (Or.inr hLdrv)
        simpa using h
      · have hab : isSep a = false ∨ isSep b = false := by
          rw [twoLeadingSeps] at htwo
          rcases hsa : isSep a with _ | _
          · exact Or.inl rfl
          · rw [hsa] at htwo
            simp at htwo
            exact Or.inr htwo
        have hnod : ntSplitDrive (a :: b :: (t ++ '\\' :: (s ++ ".7z".data)))
            = ([], a :: b :: (t ++ '\\' :: (s ++ ".7z".data))) := by
          apply ntSplitDrive_no_drive
          intro a' b' rest heq
          simp only [List.cons.injEq] at heq
          obtain ⟨h1, h2, _⟩ := heq
          subst h1
          subst h2
          exact ⟨hab, hb⟩
        have h := retry_path_core [] (a :: b :: t) s hs hnd
          (Or.inr (lastNotSep_spec hlast))
          (by simpa using hnod)
          (by
            rw [if_neg (by simp)]
            simp only [List.nil_append]
            apply ntSplitDrive_no_drive
            intro a' b' rest heq
            simp only [List.cons.injEq] at heq
            obtain ⟨h1, h2, _⟩ := heq
            subst h1
            subst h2
            exact ⟨hab, hb⟩)
          (Or.inl rfl)
        simpa using h
  · intro abspath fileSize strategy family_name outputDir h0 h1 h2
    have hfail := attempt_all_fail strategy
      (_prepare_zip_path abspath family_name outputDir) h0 h1 h2
    simp [create_zip_for_family, hfail]

/-- Witness for C2 at concrete inputs: a strategy failing twice then
succeeding on "C:\out\Font.7z"; the retry-path surgery on the same path
and on a bare "Font.7z"; an always-failing strategy yielding size 0. -/
theorem c2_witness :
    _attempt_zip_creation_with_retry (fun k => some (decide (k = 2))) "C:\\out\\Font.7z".data
      = (true, _get_retry_path "C:\\out\\Font.7z".data 2)
    ∧ _get_retry_path ("C:\\out".data ++ '\\' :: ("Font".data ++ ".7z".data)) 2
        = "C:\\out".data ++ '\\' :: ("Font".data ++ "_retry2.7z".data)
    ∧ _get_retry_path ("Font".data ++ ".7z".data) 2 = "Font".data ++ "_retry2.7z".data
    ∧ (create_zip_for_family (fun p => p) (fun _ => some 1) (fun _ => some false)
        "Font".data "C:\\out".data).2 = 0 :=
  ⟨c2_retry_and_failure.1 _ _ (by decide) (by decide) (by decide),
   c2_retry_and_failure.2.1 "C:\\out".data "Font".data (by decide) (by decide) (by decide),
   c2_retry_and_failure.2.2.1 "Font".data (by decide) (by decide),
   c2_retry_and_failure.2.2.2 _ _ _ _ _ (by decide) (by decide) (by decide)⟩

/-!
### Discovery and grouping
get_font_family reads the font's name table through fontTools (file I/O),
so the classifier is a parameter of the embedding; it returns the family
name string, with the empty string standing for every falsy result (the
code guards with a truthiness test).  is_default_windows_font is pure and
embedded concretely.
-/

/-- DEFAULT_WINDOWS_FONTS (src/font_archiver.py:218), as a list; the code
iterates a set, and the test below is independent of iteration order. -/
def DEFAULT_WINDOWS_FONTS : List PyStr :=
  ["Arial".data, "Calibri".data, "Cambria".data, "Candara".data,
   "Comic Sans MS".data, "Consolas".data, "Constantia".data, "Corbel".data,
   "Courier New".data, "Ebrima".data, "Franklin Gothic".data, "Gabriola".data,
   "Gadugi".data, "Georgia".data, "Impact".data, "Javanese Text".data,
   "Leelawadee UI".data, "Lucida Console".data, "Lucida Sans Unicode".data,
   "Malgun Gothic".data, "Microsoft Sans Serif".data, "MingLiU".data,
   "MS Gothic".data, "MS PGothic".data, "MS UI Gothic".data, "MV Boli".data,
   "Myanmar Text".data, "Nirmala UI".data, "Palatino Linotype".data,
   "Segoe MDL2 Assets".data, "Segoe Print".data, "Segoe Script".data,
   "Segoe UI".data, "SimSun".data, "Sitka".data, "Sylfaen".data,
   "Symbol".data, "Tahoma".data, "Times New Roman".data, "Trebuchet MS".data,
   "Verdana".data, "Webdings".data, "Wingdings".data, "Yu Gothic".data]

/-- is_default_windows_font (src/font_archiver.py:286): some default name
occurs case-insensitively inside the family name. -/
def is_default_windows_font (family_name : PyStr) : Bool :=
  DEFAULT_WINDOWS_FONTS.any fun d => containsSub (pyLower d) (pyLower family_name)

/-- Insertion into the font_families dict (Python dicts preserve
insertion order), modelled as an association list: append the path to the
existing key's list, or add a new key at the end. -/
def addToFamily (key p : PyStr) : List (PyStr × List PyStr) → List (PyStr × List PyStr)
  | [] => [(key, [p])]
  | (k, l) :: rest =>
    if k = key then (k, l ++ [p]) :: rest else (k, l) :: addToFamily key p rest

/-- add_font_to_families (src/font_archiver.py:406): classify, drop falsy
names and default Windows fonts, normalize the Nerd Font marker, insert. -/
def add_font_to_families (classify : PyStr → PyStr) (font_path : PyStr)
    (font_families : List (PyStr × List PyStr)) : List (PyStr × List PyStr) :=
  if classify font_path ≠ [] ∧ is_default_windows_font (classify font_path) = false then
    addToFamily (normalize_nerd_font_name (classify font_path)) font_path font_families
  else font_families

/-- The identity key used for deduplication:
os.path.basename(font_path).lower(). -/
def identityKey (p : PyStr) : PyStr := pyLower (ntBasename p)

/-- A font dropped for an exclusion reason: unclassifiable (falsy name)
or a default Windows font. -/
def excludedFont (classify : PyStr → PyStr) (p : PyStr) : Prop :=
  classify p = [] ∨ is_default_windows_font (classify p) = true

instance (classify : PyStr → PyStr) (p : PyStr) : Decidable (excludedFont classify p) := by
  unfold excludedFont
  infer_instance

/-- The group key a non-excluded font is filed under. -/
def groupKeyOf (classify : PyStr → PyStr) (p : PyStr) : PyStr :=
  normalize_nerd_font_name (classify p)

/-- process_fonts_directory (src/font_archiver.py:376) over an explicit
enumeration of the directory's font files: with add_to_processed = false
(the system directory), files whose identity was already processed are
skipped; with add_to_processed = true (the user directory), every file is
processed and its identity recorded. -/
def process_fonts_directory (classify : PyStr → PyStr) :
    List PyStr → List (PyStr × List PyStr) → List PyStr → Bool
    → List (PyStr × List PyStr) × List PyStr
  | [], font_families, processed, _ => (font_families, processed)
  | p :: rest, font_families, processed, add_to_processed =>
    if add_to_processed = false ∧ identityKey p ∈ processed then
      process_fonts_directory classify rest font_families processed add_to_processed
    else
      process_fonts_directory classify rest
        (add_font_to_families classify p font_families)
        (if add_to_processed then identityKey p :: processed else processed)
        add_to_processed

/-- scan_fonts (src/font_archiver.py:343): scan the user directory first
(recording identities), then the system directory (skipping recorded
identities), then prune empty groups. -/
def scan_fonts (classify : PyStr → PyStr) (userPaths sysPaths : List PyStr) :
    List (PyStr × List PyStr) :=
  let r1 := process_fonts_directory classify userPaths [] [] true
  let r2 := process_fonts_directory classify sysPaths r1.1 r1.2 false
  r2.1.filter fun kv => !kv.2.isEmpty

/-!
### Association-list lemmas for the font_families dict
-/

lemma addToFamily_keys (key p : PyStr) (f : List (PyStr × List PyStr)) :
    (addToFamily key p f).map Prod.fst
      = if key ∈ f.map Prod.fst then f.map Prod.fst else f.map Prod.fst ++ [key] := by
  induction f with
  | nil => simp [addToFamily]
  | cons kv rest ih =>
    obtain ⟨k, l⟩ := kv
    by_cases hk : k = key
    · subst hk
      simp [addToFamily]
    · simp only [addToFamily, if_neg hk, List.map_cons, ih]
      by_cases hm : key ∈ rest.map Prod.fst
      · simp [hm, Ne.symm hk]
      · simp [hm, Ne.symm hk]

lemma addToFamily_nodup (key p : PyStr) {f : List (PyStr × List PyStr)}
    (h : (f.map Prod.fst).Nodup) : ((addToFamily key p f).map Prod.fst).Nodup := by
  rw [addToFamily_keys]
  by_cases hm : key ∈ f.map Prod.fst
  · rw [if_pos hm]
    exact h
  · rw [if_neg hm]
    simp [List.nodup_append, h, hm]

lemma addToFamily_mem_preserve (key p : PyStr) {f : List (PyStr × List PyStr)}
    {k' : PyStr} {l' : List PyStr} {p' : PyStr} (h : (k', l') ∈ f) (hp : p' ∈ l') :
    ∃ l'', (k', l'') ∈ addToFamily key p f ∧ p' ∈ l'' := by
  induction f with
  | nil => exact absurd h (List.not_mem_nil _)
  | cons kv rest ih =>
    obtain ⟨k, l⟩ := kv
    by_cases hk : k = key
    · subst hk
      simp only [addToFamily, if_pos rfl]
      rcases List.mem_cons.1 h with he | ht
      · rw [Prod.mk.injEq] at he
        obtain ⟨he1, he2⟩ := he
        subst he1
        subst he2
        exact ⟨l' ++ [p], List.mem_cons_self _ _, List.mem_append_left _ hp⟩
      · exact ⟨l', List.mem_cons_of_mem _ ht, hp⟩
    · simp only [addToFamily, if_neg hk]
      rcases List.mem_cons.1 h with he | ht
      · exact ⟨l', by rw [he]; exact List.mem_cons_self _ _, hp⟩
      · obtain ⟨l'', h1, h2⟩ := ih ht
        exact ⟨l'', List.mem_cons_of_mem _ h1, h2⟩

lemma addToFamily_mem_new (key p : PyStr) (f : List (PyStr × List PyStr)) :
    ∃ l, (key, l) ∈ addToFamily key p f ∧ p ∈ l := by
  induction f with
  | nil => exact ⟨[p], by simp [addToFamily], by simp⟩
  | cons kv rest ih =>
    obtain ⟨k, l⟩ := kv
    by_cases hk : k = key
    · subst hk
      exact ⟨l ++ [p], by simp [addToFamily], by simp⟩
    · obtain ⟨l', h1, h2⟩ := ih
      simp only [addToFamily, if_neg hk]
      exact ⟨l', List.mem_cons_of_mem _ h1, h2⟩

lemma addToFamily_mem_sound (key p : PyStr) {f : List (PyStr × List PyStr)}
    {k' : PyStr} {l' : List PyStr} {p' : PyStr}
    (h : (k', l') ∈ addToFamily key p f) (hp : p' ∈ l') :
    (∃ l₀, (k', l₀) ∈ f ∧ p' ∈ l₀) ∨ (k' = key ∧ p' = p) := by
  induction f with
  | nil =>
    simp only [addToFamily, List.mem_singleton, Prod.mk.injEq] at h
    obtain ⟨h1, h2⟩ := h
    subst h1
    subst h2
    right
    exact ⟨rfl, by simpa using hp⟩
  | cons kv rest ih =>
    obtain ⟨k, l⟩ := kv
    by_cases hk : k = key
    · subst hk
      simp only [addToFamily, if_pos rfl] at h
      rcases List.mem_cons.1 h with he | ht
      · rw [Prod.mk.injEq] at he
        obtain ⟨he1, he2⟩ := he
        subst he1
        subst he2
        rcases List.mem_append.1 hp with hin | hin
        · exact Or.inl ⟨l, List.mem_cons_self _ _, hin⟩
        · exact Or.inr ⟨rfl, by simpa using hin⟩
      · exact Or.inl ⟨l', List.mem_cons_of_mem _ ht, hp⟩
    · simp only [addToFamily, if_neg hk] at h
      rcases List.mem_cons.1 h with he | ht
      · exact Or.inl ⟨l', by rw [he]; exact List.mem_cons_self _ _, hp⟩
      · rcases ih ht with ⟨l₀, h1, h2⟩ | hr
        · exact Or.inl ⟨l₀, List.mem_cons_of_mem _ h1, h2⟩
        · exact Or.inr hr

lemma nodup_keys_eq {L : List (PyStr × List PyStr)} (h : (L.map Prod.fst).Nodup)
    {k : PyStr} {l₁ l₂ : List PyStr} (h1 : (k, l₁) ∈ L) (h2 : (k, l₂) ∈ L) : l₁ = l₂ := by
  induction L with
  | nil => exact absurd h1 (List.not_mem_nil _)
  | cons kv rest ih =>
    obtain ⟨k0, l0⟩ := kv
    rw [List.map_cons, List.nodup_cons] at h
    rcases List.mem_cons.1 h1 with he1 | ht1 <;> rcases List.mem_cons.1 h2 with he2 | ht2
    · rw [Prod.mk.injEq] at he1 he2
      rw [he1.2, he2.2]
    · rw [Prod.mk.injEq] at he1
      exact absurd (List.mem_map.2 ⟨(k, l₂), ht2, he1.1⟩) h.1
    · rw [Prod.mk.injEq] at he2
      exact absurd (List.mem_map.2 ⟨(k, l₁), ht1, he2.1⟩) h.1
    · exact ih h.2 ht1 ht2

lemma add_font_excluded (classify : PyStr → PyStr) (p : PyStr)
    (f : List (PyStr × List PyStr)) (h : excludedFont classify p) :
    add_font_to_families classify p f = f := by
  rw [add_font_to_families, if_neg]
  intro hc
  rcases h with he | hd
  · exact hc.1 he
  · rw [hc.2] at hd
    exact Bool.false_ne_true hd

lemma add_font_not_excluded (classify : PyStr → PyStr) (p : PyStr)
    (f : List (PyStr × List PyStr)) (h : ¬ excludedFont classify p) :
    add_font_to_families classify p f = addToFamily (groupKeyOf classify p) p f := by
  rw [excludedFont, not_or] at h
  rw [add_font_to_families, if_pos ⟨h.1, by simpa using h.2⟩]
  rfl

/-!
### Invariants of the directory scan
-/

/-- Group membership is preserved by further scanning. -/
lemma process_preserve (classify : PyStr → PyStr) :
    ∀ (paths : List PyStr) (f : List (PyStr × List PyStr)) (pr : List PyStr) (flag : Bool)
      {k : PyStr} {l : List PyStr} {p' : PyStr},
      (k, l) ∈ f → p' ∈ l →
      ∃ l', (k, l') ∈ (process_fonts_directory classify paths f pr flag).1 ∧ p' ∈ l' := by
  intro paths
  induction paths with
  | nil =>
    intro f pr flag k l p' h hp
    exact ⟨l, h, hp⟩
  | cons q rest ih =>
    intro f pr flag k l p' h hp
    rw [process_fonts_directory]
    by_cases hskip : flag = false ∧ identityKey q ∈ pr
    · rw [if_pos hskip]
      exact ih _ _ _ h hp
    · rw [if_neg hskip]
      by_cases hex : excludedFont classify q
      · rw [add_font_excluded _ _ _ hex]
        exact ih _ _ _ h hp
      · rw [add_font_not_excluded _ _ _ hex]
        obtain ⟨l'', h1, h2⟩ := addToFamily_mem_preserve _ q h hp
        exact ih _ _ _ h1 h2

/-- Every member of a scanned group either was already there or is a
non-excluded input path filed under its own group key (and, when scanning
with deduplication, its identity was not among the processed ones). -/
lemma process_sound (classify : PyStr → PyStr) :
    ∀ (paths : List PyStr) (f : List (PyStr × List PyStr)) (pr : List PyStr) (flag : Bool)
      {k : PyStr} {l : List PyStr} {p' : PyStr},
      (k, l) ∈ (process_fonts_directory classify paths f pr flag).1 → p' ∈ l →
      (∃ l₀, (k, l₀) ∈ f ∧ p' ∈ l₀)
      ∨ (p' ∈ paths ∧ k = groupKeyOf classify p' ∧ ¬ excludedFont classify p'
          ∧ (flag = false → identityKey p' ∉ pr)) := by
  intro paths
  induction paths with
  | nil =>
    intro f pr flag k l p' h hp
    exact Or.inl ⟨l, h, hp⟩
  | cons q rest ih =>
    intro f pr flag k l p' h hp
    rw [process_fonts_directory] at h
    by_cases hskip : flag = false ∧ identityKey q ∈ pr
    · rw [if_pos hskip] at h
      rcases ih _ _ _ h hp with hl | ⟨hm, hk, hex, hpr⟩
      · exact Or.inl hl
      · exact Or.inr ⟨List.mem_cons_of_mem _ hm, hk, hex, hpr⟩
    · rw [if_neg hskip] at h
      rcases ih _ _ _ h hp with hl | ⟨hm, hk, hex, hpr⟩
      · obtain ⟨l₀, h1, h2⟩ := hl
        by_cases hex2 : excludedFont classify q
        · rw [add_font_excluded _ _ _ hex2] at h1
          exact Or.inl ⟨l₀, h1, h2⟩
        · rw [add_font_not_excluded _ _ _ hex2] at h1
          rcases addToFamily_mem_sound _ q h1 h2 with ⟨l₁, hh1, hh2⟩ | ⟨hkq, hpq⟩
          · exact Or.inl ⟨l₁, hh1, hh2⟩
          · subst hpq
            refine Or.inr ⟨List.mem_cons_self _ _, hkq, hex2, ?_⟩
            intro hf hin
            exact hskip ⟨hf, hin⟩
      · refine Or.inr ⟨List.mem_cons_of_mem _ hm, hk, hex, ?_⟩
        intro hf
        have := hpr hf
        rw [hf] at this
        simpa using this

/-- When scanning the user directory (every file processed), every
non-excluded path ends up in the group of its key. -/
lemma process_mem_user (classify : PyStr → PyStr) :
    ∀ (paths : List PyStr) (f : List (PyStr × List PyStr)) (pr : List PyStr) {p : PyStr},
      p ∈ paths → ¬ excludedFont classify p →
      ∃ l, (groupKeyOf classify p, l) ∈ (process_fonts_directory classify paths f pr true).1
        ∧ p ∈ l := by
  intro paths
  induction paths with
  | nil =>
    intro f pr p hm
    exact absurd hm (List.not_mem_nil _)
  | cons q rest ih =>
    intro f pr p hm hex
    rw [process_fonts_directory, if_neg (by simp)]
    rcases List.mem_cons.1 hm with he | ht
    · subst he
      rw [add_font_not_excluded _ _ _ hex]
      obtain ⟨l, h1, h2⟩ := addToFamily_mem_new (groupKeyOf classify p) p f
      exact process_preserve classify rest _ _ _ h1 h2
    · exact ih _ _ ht hex

/-- When scanning the system directory, every non-excluded path whose
identity was not recorded by the user scan ends up in the group of its
key. -/
lemma process_mem_sys (classify : PyStr → PyStr) :
    ∀ (paths : List PyStr) (f : List (PyStr × List PyStr)) (pr : List PyStr) {p : PyStr},
      p ∈ paths → identityKey p ∉ pr → ¬ excludedFont classify p →
      ∃ l, (groupKeyOf classify p, l) ∈ (process_fonts_directory classify paths f pr false).1
        ∧ p ∈ l := by
  intro paths
  induction paths with
  | nil =>
    intro f pr p hm
    exact absurd hm (List.not_mem_nil _)
  | cons q rest ih =>
    intro f pr p hm hid hex
    rw [process_fonts_directory]
    by_cases hskip : (false : Bool) = false ∧ identityKey q ∈ pr
    · rw [if_pos hskip]
      rcases List.mem_cons.1 hm with he | ht
      · subst he
        exact absurd hskip.2 hid
      · exact ih _ _ ht hid hex
    · rw [if_neg hskip]
      rcases List.mem_cons.1 hm with he | ht
      · subst he
        rw [add_font_not_excluded _ _ _ hex]
        obtain ⟨l, h1, h2⟩ := addToFamily_mem_new (groupKeyOf classify p) p f
        exact process_preserve classify rest _ _ _ h1 h2
      · exact ih _ _ ht hid hex

/-- The processed-identity set only grows. -/
lemma process_processed_mono (classify : PyStr → PyStr) :
    ∀ (paths : List PyStr) (f : List (PyStr × List PyStr)) (pr : List PyStr) (flag : Bool)
      {x : PyStr}, x ∈ pr → x ∈ (process_fonts_directory classify paths f pr flag).2 := by
  intro paths
  induction paths with
  | nil =>
    intro f pr flag x hx
    exact hx
  | cons q rest ih =>
    intro f pr flag x hx
    rw [process_fonts_directory]
    by_cases hskip : flag = false ∧ identityKey q ∈ pr
    · rw [if_pos hskip]
      exact ih _ _ _ hx
    · rw [if_neg hskip]
      apply ih
      cases flag with
      | false => exact hx
      | true => exact List.mem_cons_of_mem _ hx

/-- The user scan records the identity of every scanned path. -/
lemma process_processed_user (classify : PyStr → PyStr) :
    ∀ (paths : List PyStr) (f : List (PyStr × List PyStr)) (pr : List PyStr) {u : PyStr},
      u ∈ paths →
      identityKey u ∈ (process_fonts_directory classify paths f pr true).2 := by
  intro paths
  induction paths with
  | nil =>
    intro f pr u hm
    exact absurd hm (List.not_mem_nil _)
  | cons q rest ih =>
    intro f pr u hm
    rw [process_fonts_directory, if_neg (by simp)]
    rcases List.mem_cons.1 hm with he | ht
    · subst he
      exact process_processed_mono classify rest _ _ _ (List.mem_cons_self _ _)
    · exact ih _ _ ht

/-- Scanning preserves distinctness of group keys. -/
lemma process_nodup (classify : PyStr → PyStr) :
    ∀ (paths : List PyStr) (f : List (PyStr × List PyStr)) (pr : List PyStr) (flag : Bool),
      (f.map Prod.fst).Nodup →
      (((process_fonts_directory classify paths f pr flag).1.map Prod.fst)).Nodup := by
  intro paths
  induction paths with
  | nil =>
    intro f pr flag h
    exact h
  | cons q rest ih =>
    intro f pr flag h
    rw [process_fonts_directory]
    by_cases hskip : flag = false ∧ identityKey q ∈ pr
    · rw [if_pos hskip]
      exact ih _ _ _ h
    · rw [if_neg hskip]
      by_cases hex : excludedFont classify q
      · rw [add_font_excluded _ _ _ hex]
        exact ih _ _ _ h
      · rw [add_font_not_excluded _ _ _ hex]
        exact ih _ _ _ (addToFamily_nodup _ q h)

/-- Everything the scan records as processed is the identity of some
scanned path (or was already recorded). -/
lemma process_processed_sub (classify : PyStr → PyStr) :
    ∀ (paths : List PyStr) (f : List (PyStr × List PyStr)) (pr : List PyStr) (flag : Bool)
      {x : PyStr}, x ∈ (process_fonts_directory classify paths f pr flag).2 →
      x ∈ pr ∨ ∃ u ∈ paths, x = identityKey u := by
  intro paths
  induction paths with
  | nil =>
    intro f pr flag x hx
    exact Or.inl hx
  | cons q rest ih =>
    intro f pr flag x hx
    rw [process_fonts_directory] at hx
    by_cases hskip : flag = false ∧ identityKey q ∈ pr
    · rw [if_pos hskip] at hx
      rcases ih _ _ _ hx with h | ⟨u, hu, he⟩
      · exact Or.inl h
      · exact Or.inr ⟨u, List.mem_cons_of_mem _ hu, he⟩
    · rw [if_neg hskip] at hx
      rcases ih _ _ _ hx with h | ⟨u, hu, he⟩
      · cases flag with
        | false => exact Or.inl h
        | true =>
          rcases List.mem_cons.1 h with he | hin
          · exact Or.inr ⟨q, List.mem_cons_self _ _, he⟩
          · exact Or.inl hin
      · exact Or.inr ⟨u, List.mem_cons_of_mem _ hu, he⟩

/-- A nonempty group survives the empty-group pruning. -/
lemma mem_scan_filter {L : List (PyStr × List PyStr)} {k : PyStr} {l : List PyStr}
    (h : (k, l) ∈ L) (hne : l ≠ []) :
    (k, l) ∈ L.filter (fun kv => !kv.2.isEmpty) :=
  List.mem_filter.2 ⟨h, by simpa [List.isEmpty_iff] using hne⟩

/-- Every member of a final group is filed under its own group key. -/
lemma scan_key_sound (classify : PyStr → PyStr) (userPaths sysPaths : List PyStr)
    {k : PyStr} {l : List PyStr} {p : PyStr}
    (h : (k, l) ∈ (process_fonts_directory classify sysPaths
      (process_fonts_directory classify userPaths [] [] true).1
      (process_fonts_directory classify userPaths [] [] true).2 false).1)
    (hp : p ∈ l) : k = groupKeyOf classify p := by
  rcases process_sound classify sysPaths _ _ false h hp with ⟨l₀, h1, h2⟩ | ⟨_, hk, _, _⟩
  · rcases process_sound classify userPaths [] [] true h1 h2 with ⟨l₁, h01, _⟩ | ⟨_, hk, _, _⟩
    · exact absurd h01 (List.not_mem_nil _)
    · exact hk
  · exact hk

/-- C5: the grouping output never binds a key to an empty list, and the
groups partition the deduplicated item set: no path lies in two distinct
groups, every user-directory path is either excluded (unclassifiable or a
default family) or lies in exactly the group of its key, and every
system-directory path whose identity collides with no user-directory path
is likewise grouped or excluded. -/
theorem c5_groups_partition (classify : PyStr → PyStr) (userPaths sysPaths : List PyStr) :
    (∀ k l, (k, l) ∈ scan_fonts classify userPaths sysPaths → l ≠ [])
    ∧ (∀ k₁ l₁ k₂ l₂ p, (k₁, l₁) ∈ scan_fonts classify userPaths sysPaths →
        (k₂, l₂) ∈ scan_fonts classify userPaths sysPaths → p ∈ l₁ → p ∈ l₂ →
        k₁ = k₂ ∧ l₁ = l₂)
    ∧ (∀ p ∈ userPaths, excludedFont classify p
        ∨ ∃ l, (groupKeyOf classify p, l) ∈ scan_fonts classify userPaths sysPaths ∧ p ∈ l)
    ∧ (∀ p ∈ sysPaths, (∀ u ∈ userPaths, identityKey u ≠ identityKey p) →
        excludedFont classify p
        ∨ ∃ l, (groupKeyOf classify p, l) ∈ scan_fonts classify userPaths sysPaths ∧ p ∈ l) := by
  refine ⟨?_, ?_, ?_, ?_⟩
  · intro k l h
    simp only [scan_fonts] at h
    have := (List.mem_filter.1 h).2
    simpa [List.isEmpty_iff] using this
  · intro k₁ l₁ k₂ l₂ p h1 h2 hp1 hp2
    simp only [scan_fonts] at h1 h2
    have hm1 := (List.mem_filter.1 h1).1
    have hm2 := (List.mem_filter.1 h2).1
    have hk1 := scan_key_sound classify userPaths sysPaths hm1 hp1
    have hk2 := scan_key_sound classify userPaths sysPaths hm2 hp2
    have hkeq : k₁ = k₂ := hk1.trans hk2.symm
    subst hkeq
    refine ⟨rfl, ?_⟩
    have hnd : (((process_fonts_directory classify sysPaths
        (process_fonts_directory classify userPaths [] [] true).1
        (process_fonts_directory classify userPaths [] [] true).2 false).1.filter
          (fun kv => !kv.2.isEmpty)).map Prod.fst).Nodup := by
      apply List.Nodup.sublist (List.Sublist.map Prod.fst (List.filter_sublist _))
      exact process_nodup classify sysPaths _ _ false
        (process_nodup classify userPaths [] [] true (by simp))
    exact nodup_keys_eq hnd h1 h2
  · intro p hp
    by_cases hex : excludedFont classify p
    · exact Or.inl hex
    right
    obtain ⟨l, h1, h2⟩ := process_mem_user classify userPaths [] [] hp hex
    obtain ⟨l', h1', h2'⟩ := process_preserve classify sysPaths _ _ false h1 h2
    exact ⟨l', mem_scan_filter h1' (List.ne_nil_of_mem h2'), h2'⟩
  · intro p hp hnc
    by_cases hex : excludedFont classify p
    · exact Or.inl hex
    right
    have hid : identityKey p ∉ (process_fonts_directory classify userPaths [] [] true).2 := by
      intro hin
      rcases process_processed_sub classify userPaths [] [] true hin with h | ⟨u, hu, he⟩
      · exact absurd h (List.not_mem_nil _)
      · exact hnc u hu he.symm
    obtain ⟨l, h1, h2⟩ := process_mem_sys classify sysPaths _ _ hp hid hex
    exact ⟨l, mem_scan_filter h1 (List.ne_nil_of_mem h2), h2⟩

/-- Witness for C5 at a concrete scan: classifier constant "Foo", one
user font and one system font with distinct identities. -/
theorem c5_witness :
    (["u\\a.ttf".data, "s\\b.ttf".data] ≠ ([] : List PyStr))
    ∧ ("Foo".data = "Foo".data ∧ ["u\\a.ttf".data, "s\\b.ttf".data] = ["u\\a.ttf".data, "s\\b.ttf".data])
    ∧ (excludedFont (fun _ => "Foo".data) "u\\a.ttf".data
        ∨ ∃ l, (groupKeyOf (fun _ => "Foo".data) "u\\a.ttf".data, l)
            ∈ scan_fonts (fun _ => "Foo".data) ["u\\a.ttf".data] ["s\\b.ttf".data]
          ∧ "u\\a.ttf".data ∈ l)
    ∧ (excludedFont (fun _ => "Foo".data) "s\\b.ttf".data
        ∨ ∃ l, (groupKeyOf (fun _ => "Foo".data) "s\\b.ttf".data, l)
            ∈ scan_fonts (fun _ => "Foo".data) ["u\\a.ttf".data] ["s\\b.ttf".data]
          ∧ "s\\b.ttf".data ∈ l) :=
  ⟨(c5_groups_partition (fun _ => "Foo".data) ["u\\a.ttf".data] ["s\\b.ttf".data]).1
      "Foo".data _ (by decide),
   (c5_groups_partition (fun _ => "Foo".data) ["u\\a.ttf".data] ["s\\b.ttf".data]).2.1
      "Foo".data _ "Foo".data _ "u\\a.ttf".data (by decide) (by decide) (by decide) (by decide),
   (c5_groups_partition (fun _ => "Foo".data) ["u\\a.ttf".data] ["s\\b.ttf".data]).2.2.1
      "u\\a.ttf".data (by decide),
   (c5_groups_partition (fun _ => "Foo".data) ["u\\a.ttf".data] ["s\\b.ttf".data]).2.2.2
      "s\\b.ttf".data (by decide) (by decide)⟩

/-- C3: when a user-directory font and a system-directory font share the
same case-insensitive basename, the system item never reaches any group
(it is skipped by the identity check, whatever the enumeration orders
were), and the user item is the one included in the grouping output
(provided it is not excluded as unclassifiable or a default family). -/
theorem c3_first_source_wins (classify : PyStr → PyStr) (userPaths sysPaths : List PyStr)
    (u s : PyStr) (hu : u ∈ userPaths) (hsnu : s ∉ userPaths)
    (hid : identityKey s = identityKey u) :
    (∀ k l, (k, l) ∈ scan_fonts classify userPaths sysPaths → s ∉ l)
    ∧ (¬ excludedFont classify u →
        ∃ l, (groupKeyOf classify u, l) ∈ scan_fonts classify userPaths sysPaths ∧ u ∈ l) := by
  constructor
  · intro k l hm hsl
    simp only [scan_fonts] at hm
    have hm2 := (List.mem_filter.1 hm).1
    rcases process_sound classify sysPaths _ _ false hm2 hsl with ⟨l₀, h1, h2⟩ | ⟨_, _, _, hpr⟩
    · rcases process_sound classify userPaths [] [] true h1 h2 with ⟨l₁, h01, _⟩ | ⟨hmu, _, _, _⟩
      · exact absurd h01 (List.not_mem_nil _)
      · exact hsnu hmu
    · have huid : identityKey u ∈ (process_fonts_directory classify userPaths [] [] true).2 :=
        process_processed_user classify userPaths [] [] hu
      rw [← hid] at huid
      exact hpr rfl huid
  · intro hex
    obtain ⟨l, h1, h2⟩ := process_mem_user classify userPaths [] [] hu hex
    obtain ⟨l', h1', h2'⟩ := process_preserve classify sysPaths _ _ false h1 h2
    exact ⟨l', mem_scan_filter h1' (List.ne_nil_of_mem h2'), h2'⟩

/-- Witness for C3: "u\A.TTF" in the user directory shadows "s\a.ttf" in
the system directory (same case-insensitive basename); the user item is
grouped, the system item appears in no group. -/
theorem c3_witness :
    ("s\\a.ttf".data ∉ ["u\\A.TTF".data])
    ∧ (∃ l, (groupKeyOf (fun _ => "Foo".data) "u\\A.TTF".data, l)
        ∈ scan_fonts (fun _ => "Foo".data) ["u\\A.TTF".data] ["s\\a.ttf".data]
      ∧ "u\\A.TTF".data ∈ l) :=
  ⟨by decide,
   (c3_first_source_wins (fun _ => "Foo".data) ["u\\A.TTF".data] ["s\\a.ttf".data]
      "u\\A.TTF".data "s\\a.ttf".data (by decide) (by decide) (by decide)).2 (by decide)⟩

end FontArchiver
